import Mathlib

/-!
Shallow embedding of `pull/github.go` from akerl-unpriv/policy-bot.

The Go file orchestrates retrieval of a pull request's files, commits,
comments and reviews from GitHub.  Network interactions are modelled by an
explicit environment (`Env`) describing the data the platform would return,
and the per-context caches are modelled by an explicit `CacheState`.
Timestamps (`time.Time`) are modelled as `Nat`; a Go `*time.Time` becomes
`Option Nat`.  Go errors are modelled by the inductive `PullError`, one
constructor per distinct error construction site in the source.
-/

namespace PolicyBot

/-- Error taxonomy of `pull/github.go`: one constructor per `errors.Errorf` /
`errors.Wrap` site relevant to the retrieval logic. -/
inductive PullError where
  /-- a wrapped transport or query failure -/
  | queryFailure (msg : String)
  /-- too many files in pull request (ceiling 300) -/
  | tooManyFiles
  /-- too many commits in pull request (ceiling 250) -/
  | tooManyCommits
  /-- head commit is missing, probably due to a force-push -/
  | headMissing
  /-- head commit is missing pushed date after all attempts -/
  | pushedDateMissing
  /-- n commits were not found while loading pushed dates -/
  | backfillIncomplete (n : Nat)
deriving DecidableEq, Repr

/-- Embedding of the constant `MaxPullRequestFiles = 300`. -/
def MaxPullRequestFiles : Nat := 300

/-- Embedding of the constant `MaxPullRequestCommits = 250`. -/
def MaxPullRequestCommits : Nat := 250

/-- Embedding of `commitLoadMaxAttempts = 5`. -/
def commitLoadMaxAttempts : Nat := 5

/-- Embedding of `commitLoadBaseDelay = 1000 * time.Millisecond`, in
milliseconds. -/
def commitLoadBaseDelay : Nat := 1000

/-- Embedding of `v4Actor`: a GraphQL actor record with a `__typename`
discriminator and a login. -/
structure V4Actor where
  type : String
  login : String
deriving DecidableEq, Repr

/-- Embedding of `v4Actor.GetV3Login`: bot-typed actors get the
GitHub-v3-compatible bot suffix appended to the raw login. -/
def V4Actor.GetV3Login (a : V4Actor) : String :=
  if a.type = "Bot" then a.login ++ "[bot]" else a.login

/-- Embedding of `v4GitActor`: a git author/committer record whose associated
platform account (`User`) may be absent. -/
structure V4GitActor where
  user : Option V4Actor
deriving DecidableEq, Repr

/-- Embedding of `v4GitActor.GetV3Login`: delegate to the associated account
when present, otherwise return the empty string. -/
def V4GitActor.GetV3Login (ga : V4GitActor) : String :=
  match ga.user with
  | some u => u.GetV3Login
  | none => ""

/-- Modelled from the spec: the `FileStatus` enumeration is declared in
`pull/context.go`, which is not part of the given sources.  The spec lists the
statuses `added | deleted | modified | unknown`, with the zero value (used by
`ChangedFiles` for unrecognized status strings) being the unknown status. -/
inductive FileStatus where
  | unknown
  | added
  | deleted
  | modified
deriving DecidableEq, Repr

/-- Modelled from the spec: the `File` entity declared in `pull/context.go`;
its fields are exactly those populated by `ChangedFiles` in `github.go`. -/
structure File where
  filename : String
  status : FileStatus
  additions : Int
  deletions : Int
deriving DecidableEq, Repr

/-- A raw `github.CommitFile` record as consumed by `ChangedFiles`: the
fields read through `GetFilename`/`GetStatus`/`GetAdditions`/`GetDeletions`. -/
structure RawFile where
  filename : String
  status : String
  additions : Int
  deletions : Int
deriving DecidableEq, Repr

/-- Embedding of the `switch f.GetStatus()` mapping inside `ChangedFiles`:
the three recognized strings map to their statuses, anything else leaves the
zero value. -/
def toFileStatus (s : String) : FileStatus :=
  if s = "added" then .added
  else if s = "deleted" then .deleted
  else if s = "modified" then .modified
  else .unknown

/-- Embedding of the per-record body of the mapping loop in `ChangedFiles`. -/
def toFile (r : RawFile) : File :=
  { filename := r.filename
    status := toFileStatus r.status
    additions := r.additions
    deletions := r.deletions }

/-- Modelled from the spec: the `Commit` entity declared in `pull/context.go`;
its fields are exactly those populated by `v4Commit.ToCommit` in `github.go`.
`parents` is the ordered parent-SHA list (first entry = first parent) and
`pushedAt` models the Go `*time.Time` field mutated in place by the backfill
passes. -/
structure Commit where
  sha : String
  parents : List String
  committedViaWeb : Bool
  author : String
  committer : String
  pushedAt : Option Nat
deriving DecidableEq, Repr

/-- Modelled from the spec: the `Comment` entity declared in
`pull/context.go`; fields as populated by `v4IssueComment.ToComment`. -/
structure Comment where
  createdAt : Nat
  author : String
  body : String
deriving DecidableEq, Repr

/-- Modelled from the spec: the `Review` entity declared in
`pull/context.go`; fields as populated by `v4PullRequestReview.ToReview`. -/
structure Review where
  createdAt : Nat
  author : String
  state : String
  body : String
deriving DecidableEq, Repr

/-!
The Go code repeatedly builds a map `commitsBySHA : map[string]*Commit` by
iterating over the commit slice, so for duplicated SHAs the map points at the
LAST occurrence, and mutation through the map mutates only that occurrence.
We model the mutable heap by the commit list itself: `findLastSha` is map
lookup and `updateLastSha` is mutation through the map pointer.  The map's
key set is modelled by a separate list of distinct SHAs (`mapKeys`), from
which `delete` removes keys (`List.erase`).
-/

/-- Lookup of `commitsBySHA[sha]`: the last commit in the slice carrying the
given SHA (map insertion order means later entries overwrite earlier ones). -/
def findLastSha : List Commit → String → Option Commit
  | [], _ => none
  | c :: rest, sha =>
    match findLastSha rest sha with
    | some x => some x
    | none => if c.sha = sha then some c else none

/-- Mutation of `commitsBySHA[sha].PushedAt = d`: update the pushed date of
the last commit in the slice carrying the given SHA. -/
def updateLastSha : List Commit → String → Option Nat → List Commit
  | [], _, _ => []
  | c :: rest, sha, d =>
    if rest.any (fun x => x.sha = sha) then c :: updateLastSha rest sha d
    else if c.sha = sha then { c with pushedAt := d } :: rest
    else c :: rest

/-- Helper used to accumulate the distinct key set of `commitsBySHA` in
insertion order. -/
def insertKey (ks : List String) (s : String) : List String :=
  if s ∈ ks then ks else ks ++ [s]

/-- The key set of `commitsBySHA` after inserting every commit of the slice:
each distinct SHA once, in first-insertion order. -/
def mapKeys (commits : List Commit) : List String :=
  commits.foldl (fun ks c => insertKey ks c.sha) []

/-!
Cross-repository backfill (`loadPushedAt`).  A history query response node
carries an OID and an optional pushed date; the paginated history is modelled
as the list of pages the fork-history query would return in order (each page
is what one round-trip delivers; the last page is the one whose `PageInfo`
reports no further page, and an empty page list models a history whose first
response is already empty).
-/

/-- One node of the fork-history query response inside `loadPushedAt`. -/
structure HistoryNode where
  oid : String
  pushedDate : Option Nat
deriving DecidableEq, Repr

/-- Embedding of the body of the node loop in `loadPushedAt`: if the node's
OID is a pending key, assign the node's pushed date through the map pointer
and delete the key from the map. -/
def processNode (sp : List Commit × List String) (n : HistoryNode) : List Commit × List String :=
  if n.oid ∈ sp.2 then (updateLastSha sp.1 n.oid n.pushedDate, sp.2.erase n.oid)
  else sp

/-- Embedding of the node loop in `loadPushedAt` over one fetched page. -/
def processPage (store : List Commit) (pending : List String) (page : List HistoryNode) :
    List Commit × List String :=
  page.foldl processNode (store, pending)

/-- Embedding of the query loop of `loadPushedAt`.  `pending` is the current
key set of `commitsBySHA`; the loop guard `len(commitsBySHA) > 0` is checked
before each query; the second component of the result counts the queries
issued.  When the page list is empty the query still happens and returns an
empty page whose `PageInfo` reports no next page. -/
def loadPushedAtLoop (store : List Commit) (pending : List String) :
    List (List HistoryNode) → Nat → Except PullError (List Commit) × Nat
  | pages, q =>
    if pending.isEmpty then (.ok store, q)
    else
      match pages with
      | [] => (.error (.backfillIncomplete pending.length), q + 1)
      | p :: rest =>
        let sp := processPage store pending p
        if rest.isEmpty then
          (if sp.2.isEmpty then .ok sp.1
           else .error (.backfillIncomplete sp.2.length), q + 1)
        else loadPushedAtLoop sp.1 sp.2 rest (q + 1)

/-- Embedding of `GitHubContext.loadPushedAt`: build `commitsBySHA` from ALL
commits of the slice (regardless of whether a pushed date is already
present), then run the paginated matching loop.  Returns the updated commit
slice (or the backfill-incomplete error) together with the number of history
queries issued. -/
def loadPushedAt (commits : List Commit) (pages : List (List HistoryNode)) :
    Except PullError (List Commit) × Nat :=
  loadPushedAtLoop commits (mapKeys commits) pages 0

/-- Formalization of claim C1's own words (NOT of the source): identical to
`loadPushedAt` except that the initial pending set holds only the commits
still missing a pushed timestamp.  Used solely to compare the claim against
the source behaviour. -/
def loadPushedAtClaim (commits : List Commit) (pages : List (List HistoryNode)) :
    Except PullError (List Commit) × Nat :=
  loadPushedAtLoop commits (mapKeys (commits.filter (fun c => c.pushedAt.isNone))) pages 0

/-!
Parent-chain inference (`backfillPushedAt`).  The loop visits the first-parent
chain from the head SHA, each iteration deleting the visited SHA from the
map, which bounds the number of iterations by the number of distinct SHAs.
The Lean embedding makes that bound an explicit fuel parameter;
`backfillPushedAt` runs the loop with fuel equal to the map size, and claim
C10 proves that any larger fuel computes the same result.
-/

/-- Lookup of `commitsBySHA[sha]` when some keys may have been deleted:
`live` is the current key set. -/
def mapLookup (store : List Commit) (live : List String) (sha : String) : Option Commit :=
  if sha ∈ live then findLastSha store sha else none

/-- Embedding of the loop of `backfillPushedAt`: look up the current root; if
absent or parentless, stop; look up its first parent; if absent, stop;
otherwise assign the child's pushed date to the parent when the parent's is
unset, delete the root from the map, and advance to the parent.  The fuel
argument only caps the iteration count; `backfillPushedAt` supplies enough
fuel that the cap is never the reason the loop stops (claim C10). -/
def backfillLoop (store : List Commit) (live : List String) (root : String) :
    Nat → List Commit
  | 0 => store
  | fuel + 1 =>
    match mapLookup store live root with
    | none => store
    | some c =>
      match c.parents.head? with
      | none => store
      | some p =>
        match mapLookup store live p with
        | none => store
        | some fp =>
          let store' := if fp.pushedAt.isNone then updateLastSha store p c.pushedAt else store
          backfillLoop store' (live.erase root) fp.sha fuel

/-- Embedding of `backfillPushedAt(commits, headSHA)`: build `commitsBySHA`
from all commits and run the chain-walking loop starting at the head SHA. -/
def backfillPushedAt (commits : List Commit) (headSHA : String) : List Commit :=
  backfillLoop commits (mapKeys commits) headSHA (mapKeys commits).length

/-!
Joint comment/review pagination (`loadPagedData`).  The GraphQL cursor
protocol is modelled concretely: the platform holds a full result list, an
opaque cursor is the index just past the last delivered node, a query at
offset `off` returns the next (up to) 100 nodes plus a `PageInfo` whose end
cursor is nil exactly when the returned page is empty and whose has-next flag
says whether nodes remain past the page.
-/

/-- Page size used by every paginated GraphQL field in `github.go`
(`first: 100`). -/
def pageSize : Nat := 100

/-- Embedding of `v4PageInfo`, with the opaque end cursor modelled as an
index into the platform's full result list. -/
structure V4PageInfo where
  endCursor : Option Nat
  hasNextPage : Bool
deriving DecidableEq, Repr

/-- Platform model: the page of (up to) 100 nodes a cursor-paginated GraphQL
field returns at a given offset, with its page info. -/
def serverPage (xs : List α) (off : Nat) : List α × V4PageInfo :=
  let nodes := (xs.drop off).take pageSize
  (nodes,
   { endCursor := if nodes.isEmpty then none else some (off + nodes.length)
     hasNextPage := decide (off + nodes.length < xs.length) })

/-- The query offset denoted by a cursor variable: a nil cursor starts at the
beginning. -/
def cursorOff (cur : Option Nat) : Nat :=
  match cur with
  | none => 0
  | some k => k

/-- Embedding of `v4PageInfo.UpdateCursor`: when there is a next page and a
non-nil end cursor, advance the cursor variable and report more pages;
otherwise store the end cursor if non-nil (so later queries return empty
pages) and report completion.  Returns the new cursor variable and the
has-more flag. -/
def UpdateCursor (pi : V4PageInfo) (cur : Option Nat) : Option Nat × Bool :=
  if pi.hasNextPage ∧ pi.endCursor.isSome then (pi.endCursor, true)
  else
    match pi.endCursor with
    | some c => (some c, false)
    | none => (cur, false)

/-- Embedding of the round-trip loop of `loadPagedData`: one combined query
per iteration advances both the comment cursor and the review cursor; the
loop exits when both `UpdateCursor` calls report completion in the same
iteration.  The third result component counts round-trips.  The fuel
argument is a structural-recursion bound only; `loadPagedData` supplies
enough fuel that it never runs out. -/
def loadPagedLoop (allC : List Comment) (allR : List Review) :
    Nat → Option Nat → Option Nat → List Comment → List Review → Nat →
    List Comment × List Review × Nat
  | 0, _, _, accC, accR, rounds => (accC, accR, rounds)
  | fuel + 1, cc, rc, accC, accR, rounds =>
    let cPage := serverPage allC (cursorOff cc)
    let rPage := serverPage allR (cursorOff rc)
    let accC' := accC ++ cPage.1
    let accR' := accR ++ rPage.1
    let cNext := UpdateCursor cPage.2 cc
    let rNext := UpdateCursor rPage.2 rc
    if cNext.2 = false ∧ rNext.2 = false then (accC', accR', rounds + 1)
    else loadPagedLoop allC allR fuel cNext.1 rNext.1 accC' accR' (rounds + 1)

/-- Embedding of `GitHubContext.loadPagedData` in the healthy-transport case:
paginate comments and reviews jointly from nil cursors, returning both
complete lists and the number of combined round-trips issued. -/
def loadPagedData (allC : List Comment) (allR : List Review) :
    List Comment × List Review × Nat :=
  loadPagedLoop allC allR (allC.length + allR.length + 1) none none [] [] 0

/-!
Commit loading (`loadCommits`).  The environment describes, per attempt, the
commit list a full `loadRawCommits` pagination would deliver (already mapped
through `v4Commit.ToCommit`) and the fork-history pages `loadPushedAt` would
see on that attempt, together with the PR descriptor fields the loader
reads.  It also carries the file-list and comment/review data used by the
other accessors.
-/

/-- Environment of one `GitHubContext`: the platform data each query would
return.  `raw i` is the commit list fetched on attempt `i` (0-indexed),
`history i` the fork-history pages on attempt `i`.  `fileFetch` is the
outcome of the full file-list pagination, and `pagedErr`, when set, makes the
combined comment/review query fail. -/
structure Env where
  headSHA : String
  isCrossRepository : Bool
  raw : Nat → List Commit
  history : Nat → List (List HistoryNode)
  fileFetch : Except String (List RawFile)
  commentsSrv : List Comment
  reviewsSrv : List Review
  pagedErr : Option String

/-- Pushed date of the head commit inside the current commit slice.  After
`loadPushedAt` the Go code reads the mutated `head` pointer, which aliases
the last slice element having the head SHA; `loadPushedAt` never changes any
commit's SHA, so the lookup always succeeds and the default is never used. -/
def headPushed (commits : List Commit) (sha : String) : Option Nat :=
  match findLastSha commits sha with
  | some c => c.pushedAt
  | none => none

/-- Embedding of one iteration of the `loadCommits` retry loop, minus the
retry bookkeeping: fetch and map the commits of attempt `i`, find the head
commit (last slice match, as in the Go scan), run `loadPushedAt` when the PR
is cross-repository and the head has no pushed date, and report the
(possibly updated) commit slice together with the head's pushed date.  The
second component counts fork-history queries issued. -/
def attemptStep (env : Env) (i : Nat) :
    Except PullError (List Commit × Option Nat) × Nat :=
  let commits := env.raw i
  match findLastSha commits env.headSHA with
  | none => (.error .headMissing, 0)
  | some head =>
    if env.isCrossRepository ∧ head.pushedAt.isNone then
      match loadPushedAt commits (env.history i) with
      | (.error e, q) => (.error e, q)
      | (.ok commits', q) => (.ok (commits', headPushed commits' env.headSHA), q)
    else (.ok (commits, head.pushedAt), 0)

/-- Embedding of the retry loop of `loadCommits`.  `attempts` is the Go
`attempts` counter at loop entry; the result records the commit slice or
error, the total number of fetch attempts performed, the chronological list
of sleep durations in milliseconds, and the total number of fork-history
queries.  The fuel argument is a structural-recursion bound only: the loop
is entered with `fuel = commitLoadMaxAttempts - attempts`, and the
`attempts + 1 ≥ commitLoadMaxAttempts` check always fires before fuel runs
out, so the fuel-0 branch is unreachable from `loadCommitsGo`. -/
def loadCommitsLoop (env : Env) :
    Nat → Nat → List Nat → Nat → Except PullError (List Commit) × Nat × List Nat × Nat
  | 0, attempts, sleeps, histQ => (.error .pushedDateMissing, attempts, sleeps, histQ)
  | fuel + 1, attempts, sleeps, histQ =>
    match attemptStep env attempts with
    | (.error e, hq) => (.error e, attempts + 1, sleeps, histQ + hq)
    | (.ok (cs, pushed), hq) =>
      match pushed with
      | some _ => (.ok cs, attempts + 1, sleeps, histQ + hq)
      | none =>
        if commitLoadMaxAttempts ≤ attempts + 1 then
          (.error .pushedDateMissing, attempts + 1, sleeps, histQ + hq)
        else
          loadCommitsLoop env fuel (attempts + 1)
            (sleeps ++ [2 ^ attempts * commitLoadBaseDelay]) (histQ + hq)

/-- Embedding of `GitHubContext.loadCommits`: run the retry loop from zero
attempts. -/
def loadCommitsGo (env : Env) : Except PullError (List Commit) × Nat × List Nat × Nat :=
  loadCommitsLoop env commitLoadMaxAttempts 0 [] 0

/-!
The per-context caches and the public accessors.  A Go nil slice is `none`;
note the asymmetry faithfully carried over from the source: `ChangedFiles`
fills its cache with `append` starting from the nil slice (so an empty file
list leaves the cache nil), while `loadCommits` / `loadPagedData` build
non-nil (possibly empty) slices before storing them.
-/

/-- The cached fields of `GitHubContext` (nil slice = `none`). -/
structure CacheState where
  files : Option (List File)
  commits : Option (List Commit)
  comments : Option (List Comment)
  reviews : Option (List Review)
deriving DecidableEq, Repr

/-- The all-nil cache a freshly constructed context starts with. -/
def CacheState.init : CacheState :=
  { files := none, commits := none, comments := none, reviews := none }

/-- Embedding of `GitHubContext.ChangedFiles`.  Returns the result, the
cache state after the call, and the number of file-list fetch operations
performed (0 on a cache hit).  The size-ceiling check sits outside the
population block in the source, so it also applies to cache hits, and the
cache is written before the check runs. -/
def changedFiles (env : Env) (s : CacheState) :
    Except PullError (List File) × CacheState × Nat :=
  match s.files with
  | some fs =>
    if MaxPullRequestFiles ≤ fs.length then (.error .tooManyFiles, s, 0)
    else (.ok fs, s, 0)
  | none =>
    match env.fileFetch with
    | .error e => (.error (.queryFailure e), s, 1)
    | .ok raws =>
      let fs := raws.map toFile
      let s' := { s with files := if fs.isEmpty then none else some fs }
      if MaxPullRequestFiles ≤ fs.length then (.error .tooManyFiles, s', 1)
      else (.ok fs, s', 1)

/-- Embedding of `GitHubContext.Commits`.  Returns the result, the cache
state after the call, and the load trace (fetch attempts, sleeps, history
queries) of the populating call, all zero on a cache hit. -/
def commitsFn (env : Env) (s : CacheState) :
    Except PullError (List Commit) × CacheState × Nat × List Nat × Nat :=
  match s.commits with
  | some cs => (.ok cs, s, 0, [], 0)
  | none =>
    match loadCommitsGo env with
    | (.error e, f, sl, hq) => (.error e, s, f, sl, hq)
    | (.ok cs, f, sl, hq) =>
      if MaxPullRequestCommits ≤ cs.length then (.error .tooManyCommits, s, f, sl, hq)
      else
        let cs' := backfillPushedAt cs env.headSHA
        (.ok cs', { s with commits := some cs' }, f, sl, hq)

/-- Embedding of `GitHubContext.loadPagedData` including the failure case:
a set `pagedErr` models the combined query failing (on its first
round-trip), in which case no rounds complete and nothing is returned. -/
def loadPagedDataE (env : Env) : Except PullError (List Comment × List Review × Nat) :=
  match env.pagedErr with
  | some e => .error (.queryFailure e)
  | none => .ok (loadPagedData env.commentsSrv env.reviewsSrv)

/-- Embedding of `GitHubContext.Comments`.  Returns the result, the cache
state after the call, and the number of combined round-trips issued. -/
def commentsFn (env : Env) (s : CacheState) :
    Except PullError (List Comment) × CacheState × Nat :=
  match s.comments with
  | some cs => (.ok cs, s, 0)
  | none =>
    match loadPagedDataE env with
    | .error e => (.error e, s, 1)
    | .ok (cms, rvs, rounds) =>
      (.ok cms, { s with comments := some cms, reviews := some rvs }, rounds)

/-- Embedding of `GitHubContext.Reviews`.  Returns the result, the cache
state after the call, and the number of combined round-trips issued. -/
def reviewsFn (env : Env) (s : CacheState) :
    Except PullError (List Review) × CacheState × Nat :=
  match s.reviews with
  | some rs => (.ok rs, s, 0)
  | none =>
    match loadPagedDataE env with
    | .error e => (.error e, s, 1)
    | .ok (cms, rvs, rounds) =>
      (.ok rvs, { s with comments := some cms, reviews := some rvs }, rounds)

-- Decidable equality for `Except`, used to evaluate the model at concrete inputs.
deriving instance DecidableEq for Except

/-- The retry loop's per-attempt observation used by claim C2: attempt `i`
fetches successfully, finds the head commit, and (after any cross-repository
backfill) the head's pushed date is still unset. -/
def attemptUnset (env : Env) (i : Nat) : Prop :=
  ∃ cs hq, attemptStep env i = (.ok (cs, none), hq)

/-- Number of 100-node pages needed to deliver `n` nodes: `ceil(n / 100)`. -/
def pagesFor (n : Nat) : Nat :=
  (n + pageSize - 1) / pageSize

/-- Fixture: a head commit whose pushed date is already set. -/
def headCommitFix : Commit :=
  { sha := "head", parents := [], committedViaWeb := false
    author := "alice", committer := "alice", pushedAt := some 1 }

/-- Fixture: a head commit whose pushed date is unset. -/
def headNoDateFix : Commit :=
  { sha := "head", parents := [], committedViaWeb := false
    author := "alice", committer := "alice", pushedAt := none }

/-- Fixture environment: healthy same-repository PR with one commit whose
pushed date is set, 300 changed files, one comment and no reviews. -/
def envCeiling : Env :=
  { headSHA := "head", isCrossRepository := false
    raw := fun _ => [headCommitFix]
    history := fun _ => []
    fileFetch := .ok (List.replicate 300
      { filename := "f", status := "added", additions := 1, deletions := 0 })
    commentsSrv := [{ createdAt := 1, author := "alice", body := "hi" }]
    reviewsSrv := [], pagedErr := none }

/-- Fixture environment: same-repository PR whose head commit never gets a
pushed date on any fetch attempt. -/
def envUnset : Env :=
  { headSHA := "head", isCrossRepository := false
    raw := fun _ => [headNoDateFix]
    history := fun _ => []
    fileFetch := .ok [], commentsSrv := [], reviewsSrv := [], pagedErr := none }

/-- Fixture environment: the fetched commit window never contains the head
SHA. -/
def envNoHead : Env :=
  { headSHA := "head", isCrossRepository := false
    raw := fun _ => []
    history := fun _ => []
    fileFetch := .ok [], commentsSrv := [], reviewsSrv := [], pagedErr := none }

/-- Fixture environment: cross-repository PR whose head commit has no pushed
date and whose fork-history query returns an empty history. -/
def envFork : Env :=
  { headSHA := "head", isCrossRepository := true
    raw := fun _ => [headNoDateFix]
    history := fun _ => []
    fileFetch := .ok [], commentsSrv := [], reviewsSrv := [], pagedErr := none }

/-- Fixture environment: a PR with an empty changed-file list and one
comment. -/
def envFilesEmpty : Env :=
  { headSHA := "head", isCrossRepository := false
    raw := fun _ => [headCommitFix]
    history := fun _ => []
    fileFetch := .ok []
    commentsSrv := [{ createdAt := 1, author := "alice", body := "hi" }]
    reviewsSrv := [], pagedErr := none }

/-- Fixture environment: the file-list fetch fails with a transport error. -/
def envFilesErr : Env :=
  { headSHA := "head", isCrossRepository := false
    raw := fun _ => [headCommitFix]
    history := fun _ => []
    fileFetch := .error "boom"
    commentsSrv := [], reviewsSrv := [], pagedErr := none }

/-!
Helper lemmas.
-/

/-- A successful `commitsBySHA` lookup implies the key is still live. -/
theorem mapLookup_mem {store : List Commit} {live : List String} {sha : String} {c : Commit}
    (h : mapLookup store live sha = some c) : sha ∈ live := by
  by_contra hm
  simp [mapLookup, hm] at h

/-- Unfolding equation for one iteration of the chain-inference loop. -/
theorem backfillLoop_succ (store : List Commit) (live : List String) (root : String) (fuel : Nat) :
    backfillLoop store live root (fuel + 1) =
      match mapLookup store live root with
      | none => store
      | some c =>
        match c.parents.head? with
        | none => store
        | some p =>
          match mapLookup store live p with
          | none => store
          | some fp =>
            backfillLoop (if fp.pushedAt.isNone then updateLastSha store p c.pushedAt else store)
              (live.erase root) fp.sha fuel := rfl

/-- The chain-inference loop is insensitive to extra fuel beyond the size of
the live key set: each iteration deletes the visited root from the key set,
so at most one iteration runs per distinct commit. -/
theorem backfillLoop_stable (n : Nat) :
    ∀ (store : List Commit) (live : List String) (root : String) (k : Nat),
    live.length ≤ n →
    backfillLoop store live root (live.length + k) = backfillLoop store live root live.length := by
  induction n with
  | zero =>
    intro store live root k h
    have hlive : live = [] := List.eq_nil_of_length_eq_zero (Nat.le_zero.mp h)
    subst hlive
    cases k with
    | zero => rfl
    | succ k => simp [backfillLoop, mapLookup]
  | succ n ih =>
    intro store live root k h
    cases hl : live.length with
    | zero =>
      have hlive : live = [] := List.eq_nil_of_length_eq_zero hl
      subst hlive
      cases k with
      | zero => rfl
      | succ k => simp [backfillLoop, mapLookup]
    | succ m =>
      rw [show m + 1 + k = (m + k) + 1 from by omega, backfillLoop_succ, backfillLoop_succ]
      cases h1 : mapLookup store live root with
      | none => rfl
      | some c =>
        dsimp only
        cases h2 : c.parents.head? with
        | none => rfl
        | some p =>
          dsimp only
          cases h3 : mapLookup store live p with
          | none => rfl
          | some fp =>
            dsimp only
            have hroot : root ∈ live := mapLookup_mem h1
            have herase : (live.erase root).length = m := by
              rw [List.length_erase_of_mem hroot]
              omega
            have hrec := ih (if fp.pushedAt.isNone then updateLastSha store p c.pushedAt else store)
              (live.erase root) fp.sha k (by omega)
            rw [herase] at hrec
            exact hrec

/-!
Claim theorems.
-/

/-- C10: parent-chain inference (`backfillPushedAt`) terminates for every
finite commit list and head SHA, including cyclic or repeated parent
references: because each visited SHA is deleted from the lookup index before
advancing, the loop body runs at most once per distinct commit, so running
the loop with any fuel beyond the key-set size computes the same result as
`backfillPushedAt` itself. -/
theorem c10_backfill_termination (commits : List Commit) (headSHA : String) (k : Nat) :
    backfillLoop commits (mapKeys commits) headSHA ((mapKeys commits).length + k) =
      backfillPushedAt commits headSHA :=
  backfillLoop_stable (mapKeys commits).length commits (mapKeys commits) headSHA k le_rfl

/-- C8: actor normalization appends the bot suffix to the raw login exactly
for actors of the automation (Bot) type, returns the raw login unchanged for
every other type, and yields the empty string (not an error) for a commit
author/committer record with no associated account. -/
theorem c8_actor_normalization (a : V4Actor) (ga : V4GitActor) :
    (a.type = "Bot" → a.GetV3Login = a.login ++ "[bot]") ∧
    (a.type ≠ "Bot" → a.GetV3Login = a.login) ∧
    (ga.user = none → ga.GetV3Login = "") := by
  refine ⟨fun h => ?_, fun h => ?_, fun h => ?_⟩
  · simp [V4Actor.GetV3Login, h]
  · simp [V4Actor.GetV3Login, h]
  · simp [V4GitActor.GetV3Login, h]

/-- Witness for C8 at concrete actors: a bot-typed actor with login
deploy-bot normalizes to deploy-bot[bot], a user-typed actor with login
alice normalizes to alice, and an absent account normalizes to the empty
string. -/
theorem c8_witness :
    V4Actor.GetV3Login { type := "Bot", login := "deploy-bot" } = "deploy-bot[bot]" ∧
    V4Actor.GetV3Login { type := "User", login := "alice" } = "alice" ∧
    V4GitActor.GetV3Login { user := none } = "" := by
  refine ⟨?_, ?_, ?_⟩
  · exact (c8_actor_normalization { type := "Bot", login := "deploy-bot" } { user := none }).1 rfl
  · exact (c8_actor_normalization { type := "User", login := "alice" } { user := none }).2.1 (by decide)
  · exact (c8_actor_normalization { type := "Bot", login := "x" } { user := none }).2.2 rfl

/-- C6: when no fetched commit carries the head SHA, `Commits()` fails with
the head-missing error on that same attempt: exactly one fetch, no sleeps,
no backfill query, no retry. -/
theorem c6_head_missing (env : Env)
    (h : findLastSha (env.raw 0) env.headSHA = none) :
    loadCommitsGo env = (.error .headMissing, 1, [], 0) := by
  show loadCommitsLoop env commitLoadMaxAttempts 0 [] 0 = _
  rw [show commitLoadMaxAttempts = 4 + 1 from rfl]
  simp [loadCommitsLoop, attemptStep, h]

/-- Witness for C6: a window that does not contain the head commit makes the
loader fail immediately with the head-missing error. -/
theorem c6_witness : loadCommitsGo envNoHead = (.error .headMissing, 1, [], 0) :=
  c6_head_missing envNoHead rfl

/-- C7: parent-chain inference walks the first-parent chain from the head
SHA, giving each parent with an unset pushed date its child's date, so on a
linear chain head→A→B→C where only head is dated, A, B and C all inherit the
head's date; and `Commits()` applies `backfillPushedAt` unconditionally
(independent of the fork flag) as the final step before caching the list. -/
theorem c7_chain_inference (t : Nat) (env : Env) (s : CacheState) (cs : List Commit)
    (f hq : Nat) (sl : List Nat)
    (hcache : s.commits = none)
    (hload : loadCommitsGo env = (.ok cs, f, sl, hq))
    (hsize : cs.length < MaxPullRequestCommits) :
    backfillPushedAt
      [{ sha := "head", parents := ["a"], committedViaWeb := false, author := "", committer := "", pushedAt := some t },
       { sha := "a", parents := ["b"], committedViaWeb := false, author := "", committer := "", pushedAt := none },
       { sha := "b", parents := ["c"], committedViaWeb := false, author := "", committer := "", pushedAt := none },
       { sha := "c", parents := [], committedViaWeb := false, author := "", committer := "", pushedAt := none }] "head" =
      [{ sha := "head", parents := ["a"], committedViaWeb := false, author := "", committer := "", pushedAt := some t },
       { sha := "a", parents := ["b"], committedViaWeb := false, author := "", committer := "", pushedAt := some t },
       { sha := "b", parents := ["c"], committedViaWeb := false, author := "", committer := "", pushedAt := some t },
       { sha := "c", parents := [], committedViaWeb := false, author := "", committer := "", pushedAt := some t }] ∧
    (commitsFn env s).1 = .ok (backfillPushedAt cs env.headSHA) ∧
    (commitsFn env s).2.1.commits = some (backfillPushedAt cs env.headSHA) := by
  refine ⟨rfl, ?_, ?_⟩ <;>
    simp [commitsFn, hcache, hload, show ¬ MaxPullRequestCommits ≤ cs.length from by omega]

/-- Witness for C7 at a concrete timestamp and a concrete healthy
environment. -/
theorem c7_witness :
    backfillPushedAt
      [{ sha := "head", parents := ["a"], committedViaWeb := false, author := "", committer := "", pushedAt := some 7 },
       { sha := "a", parents := ["b"], committedViaWeb := false, author := "", committer := "", pushedAt := none },
       { sha := "b", parents := ["c"], committedViaWeb := false, author := "", committer := "", pushedAt := none },
       { sha := "c", parents := [], committedViaWeb := false, author := "", committer := "", pushedAt := none }] "head" =
      [{ sha := "head", parents := ["a"], committedViaWeb := false, author := "", committer := "", pushedAt := some 7 },
       { sha := "a", parents := ["b"], committedViaWeb := false, author := "", committer := "", pushedAt := some 7 },
       { sha := "b", parents := ["c"], committedViaWeb := false, author := "", committer := "", pushedAt := some 7 },
       { sha := "c", parents := [], committedViaWeb := false, author := "", committer := "", pushedAt := some 7 }] ∧
    (commitsFn envCeiling CacheState.init).1 = .ok (backfillPushedAt [headCommitFix] envCeiling.headSHA) ∧
    (commitsFn envCeiling CacheState.init).2.1.commits = some (backfillPushedAt [headCommitFix] envCeiling.headSHA) :=
  c7_chain_inference 7 envCeiling CacheState.init [headCommitFix] 1 0 [] rfl (by decide) (by decide)

/-- C3: with the population succeeding, `ChangedFiles()` fails with the
size-exceeded error exactly when the fetched file count is at or above 300
(and otherwise returns the mapped list), and `Commits()` fails with the
size-exceeded error exactly when the loaded commit count is at or above 250
(and otherwise returns the backfilled list). -/
theorem c3_size_ceilings (env : Env) (s : CacheState) (raws : List RawFile)
    (cs : List Commit) (f hq : Nat) (sl : List Nat)
    (hf : s.files = none) (hraw : env.fileFetch = .ok raws)
    (hc : s.commits = none) (hload : loadCommitsGo env = (.ok cs, f, sl, hq)) :
    ((changedFiles env s).1 = .error .tooManyFiles ↔ MaxPullRequestFiles ≤ raws.length) ∧
    (raws.length < MaxPullRequestFiles → (changedFiles env s).1 = .ok (raws.map toFile)) ∧
    ((commitsFn env s).1 = .error .tooManyCommits ↔ MaxPullRequestCommits ≤ cs.length) ∧
    (cs.length < MaxPullRequestCommits → (commitsFn env s).1 = .ok (backfillPushedAt cs env.headSHA)) := by
  refine ⟨?_, fun h => ?_, ?_, fun h => ?_⟩
  · by_cases h : MaxPullRequestFiles ≤ raws.length
    · simp [changedFiles, hf, hraw, h]
    · simp [changedFiles, hf, hraw, h]
  · simp [changedFiles, hf, hraw, show ¬ MaxPullRequestFiles ≤ raws.length from by omega]
  · by_cases h : MaxPullRequestCommits ≤ cs.length
    · simp [commitsFn, hc, hload, h]
    · simp [commitsFn, hc, hload, h]
  · simp [commitsFn, hc, hload, show ¬ MaxPullRequestCommits ≤ cs.length from by omega]

/-- Witness for C3: at exactly 300 fetched files the file accessor fails
with the size-exceeded error, while a 1-commit load (ceiling not reached)
succeeds. -/
theorem c3_witness :
    (changedFiles envCeiling CacheState.init).1 = .error .tooManyFiles ∧
    (commitsFn envCeiling CacheState.init).1 = .ok (backfillPushedAt [headCommitFix] envCeiling.headSHA) := by
  obtain ⟨h1, h2, h3, h4⟩ := c3_size_ceilings envCeiling CacheState.init
    (List.replicate 300 { filename := "f", status := "added", additions := 1, deletions := 0 })
    [headCommitFix] 1 0 [] rfl rfl rfl (by decide)
  exact ⟨h1.mpr (by rw [List.length_replicate]; exact Nat.le.refl), h4 (by decide)⟩

/-- Unfolding equation for one iteration of the commit retry loop. -/
theorem loadCommitsLoop_succ (env : Env) (fuel attempts : Nat) (sleeps : List Nat) (histQ : Nat) :
    loadCommitsLoop env (fuel + 1) attempts sleeps histQ =
      match attemptStep env attempts with
      | (.error e, hq) => (.error e, attempts + 1, sleeps, histQ + hq)
      | (.ok (cs, pushed), hq) =>
        match pushed with
        | some _ => (.ok cs, attempts + 1, sleeps, histQ + hq)
        | none =>
          if commitLoadMaxAttempts ≤ attempts + 1 then
            (.error .pushedDateMissing, attempts + 1, sleeps, histQ + hq)
          else
            loadCommitsLoop env fuel (attempts + 1)
              (sleeps ++ [2 ^ attempts * commitLoadBaseDelay]) (histQ + hq) := rfl

/-- When every remaining attempt leaves the head's pushed date unset, the
retry loop exhausts all attempts, sleeping the doubling delays between them
and failing with the missing-pushed-date error after the last one. -/
theorem loadCommitsLoop_allUnset (env : Env) :
    ∀ (fuel : Nat), ∀ (attempts : Nat) (sleeps : List Nat) (histQ : Nat),
    attempts + fuel = commitLoadMaxAttempts →
    (∀ i, attempts ≤ i → i < commitLoadMaxAttempts → attemptUnset env i) →
    ∃ h, loadCommitsLoop env fuel attempts sleeps histQ =
      (.error .pushedDateMissing, commitLoadMaxAttempts, sleeps ++
        (List.range' attempts (commitLoadMaxAttempts - 1 - attempts)).map
          (fun i => 2 ^ i * commitLoadBaseDelay), h) := by
  intro fuel
  induction fuel with
  | zero =>
    intro attempts sleeps histQ hsum hall
    refine ⟨histQ, ?_⟩
    have ha : attempts = commitLoadMaxAttempts := by omega
    subst ha
    have hz : commitLoadMaxAttempts - 1 - commitLoadMaxAttempts = 0 := by omega
    rw [hz]
    simp [loadCommitsLoop]
  | succ fuel ih =>
    intro attempts sleeps histQ hsum hall
    have hattempts : attempts < commitLoadMaxAttempts := by omega
    obtain ⟨cs, hq, hstep⟩ := hall attempts le_rfl hattempts
    rw [loadCommitsLoop_succ, hstep]
    dsimp only
    by_cases hlast : commitLoadMaxAttempts ≤ attempts + 1
    · rw [if_pos hlast]
      refine ⟨histQ + hq, ?_⟩
      have ha : attempts = commitLoadMaxAttempts - 1 := by omega
      have hz : commitLoadMaxAttempts - 1 - attempts = 0 := by omega
      rw [hz]
      simp only [List.range'_zero, List.map_nil, List.append_nil]
      have : attempts + 1 = commitLoadMaxAttempts := by omega
      rw [this]
    · rw [if_neg hlast]
      obtain ⟨h, hrec⟩ := ih (attempts + 1) (sleeps ++ [2 ^ attempts * commitLoadBaseDelay])
        (histQ + hq) (by omega) (fun i hi hi2 => hall i (by omega) hi2)
      refine ⟨h, ?_⟩
      rw [hrec]
      have hc : commitLoadMaxAttempts - 1 - attempts =
          (commitLoadMaxAttempts - 1 - (attempts + 1)) + 1 := by omega
      rw [hc, List.range'_succ, List.map_cons, List.append_cons]
      simp

/-- When attempts before `j` leave the head's pushed date unset and attempt
`j` resolves it, the retry loop returns attempt `j`'s commits after exactly
`j + 1` fetches, having slept only the first `j` delays. -/
theorem loadCommitsLoop_succeeds (env : Env) (j : Nat) (cs : List Commit) (t hq : Nat) :
    ∀ (fuel : Nat), ∀ (attempts : Nat) (sleeps : List Nat) (histQ : Nat),
    attempts + fuel = commitLoadMaxAttempts →
    attempts ≤ j → j < commitLoadMaxAttempts →
    (∀ i, attempts ≤ i → i < j → attemptUnset env i) →
    attemptStep env j = (.ok (cs, some t), hq) →
    ∃ h, loadCommitsLoop env fuel attempts sleeps histQ =
      (.ok cs, j + 1, sleeps ++ (List.range' attempts (j - attempts)).map
        (fun i => 2 ^ i * commitLoadBaseDelay), h) := by
  intro fuel
  induction fuel with
  | zero =>
    intro attempts sleeps histQ hsum hle hlt hall hstep
    omega
  | succ fuel ih =>
    intro attempts sleeps histQ hsum hle hlt hall hstep
    by_cases haj : attempts = j
    · subst haj
      rw [loadCommitsLoop_succ, hstep]
      dsimp only
      refine ⟨histQ + hq, ?_⟩
      have hz : attempts - attempts = 0 := by omega
      rw [hz]
      simp only [List.range'_zero, List.map_nil, List.append_nil]
    · have hattempts : attempts < j := by omega
      obtain ⟨cs0, hq0, hstep0⟩ := hall attempts le_rfl hattempts
      rw [loadCommitsLoop_succ, hstep0]
      dsimp only
      rw [if_neg (by omega)]
      obtain ⟨h, hrec⟩ := ih (attempts + 1) (sleeps ++ [2 ^ attempts * commitLoadBaseDelay])
        (histQ + hq0) (by omega) (by omega) hlt (fun i hi hi2 => hall i (by omega) hi2) hstep
      refine ⟨h, ?_⟩
      rw [hrec]
      have hc : j - attempts = (j - (attempts + 1)) + 1 := by omega
      rw [hc, List.range'_succ, List.map_cons, List.append_cons]
      simp

/-- C2: when the head commit's pushed date is unset on every attempt,
`Commits()` performs exactly 5 fetch attempts with sleeps of 1000, 2000,
4000 and 8000 milliseconds between consecutive attempts and fails with the
missing-pushed-date error after the 5th; and when the date becomes set on
0-indexed attempt `j < 5` (the claim's attempt `k = j + 1 ≤ 5`), it succeeds
after exactly `j + 1` fetches having slept only the first `j` delays. -/
theorem c2_retry_backoff (env : Env) :
    ((∀ i, i < commitLoadMaxAttempts → attemptUnset env i) →
      ∃ h, loadCommitsGo env = (.error .pushedDateMissing, 5, [1000, 2000, 4000, 8000], h)) ∧
    (∀ j cs t hq, j < commitLoadMaxAttempts →
      (∀ i, i < j → attemptUnset env i) →
      attemptStep env j = (.ok (cs, some t), hq) →
      ∃ h, loadCommitsGo env = (.ok cs, j + 1,
        (List.range' 0 j).map (fun i => 2 ^ i * commitLoadBaseDelay), h)) := by
  constructor
  · intro hall
    obtain ⟨h, hh⟩ := loadCommitsLoop_allUnset env commitLoadMaxAttempts 0 [] 0 rfl
      (fun i _ hi => hall i hi)
    refine ⟨h, ?_⟩
    have e : ([] : List Nat) ++ (List.range' 0 (commitLoadMaxAttempts - 1 - 0)).map
        (fun i => 2 ^ i * commitLoadBaseDelay) = [1000, 2000, 4000, 8000] := by decide
    rw [← e]
    exact hh
  · intro j cs t hq hlt hall hstep
    obtain ⟨h, hh⟩ := loadCommitsLoop_succeeds env j cs t hq commitLoadMaxAttempts 0 [] 0 rfl
      (Nat.zero_le j) hlt (fun i _ hi => hall i hi) hstep
    refine ⟨h, ?_⟩
    have hz : j - 0 = j := by omega
    rw [hz] at hh
    rw [← List.nil_append ((List.range' 0 j).map (fun i => 2 ^ i * commitLoadBaseDelay))]
    exact hh

/-- Witness for C2: an environment whose head commit never carries a pushed
date makes the loader fail with exactly 5 attempts and the four doubling
sleeps. -/
theorem c2_witness :
    ∃ h, loadCommitsGo envUnset = (.error .pushedDateMissing, 5, [1000, 2000, 4000, 8000], h) :=
  (c2_retry_backoff envUnset).1 (fun _ _ => ⟨[headNoDateFix], 0, rfl⟩)

/-- Unfolding equation for the query loop of `loadPushedAt`. -/
theorem loadPushedAtLoop_eq (store : List Commit) (pending : List String)
    (pages : List (List HistoryNode)) (q : Nat) :
    loadPushedAtLoop store pending pages q =
      if pending.isEmpty then (.ok store, q)
      else
        match pages with
        | [] => (.error (.backfillIncomplete pending.length), q + 1)
        | p :: rest =>
          let sp := processPage store pending p
          if rest.isEmpty then
            (if sp.2.isEmpty then .ok sp.1
             else .error (.backfillIncomplete sp.2.length), q + 1)
          else loadPushedAtLoop sp.1 sp.2 rest (q + 1) := by
  cases pages <;> rfl

/-- A pending SHA matched by no node of a page survives the page's
processing. -/
theorem processPage_mem_of_unmatched :
    ∀ (page : List HistoryNode) (store : List Commit) (pending : List String) (sha : String),
    sha ∈ pending → (∀ n ∈ page, n.oid ≠ sha) →
    sha ∈ (processPage store pending page).2 := by
  intro page
  induction page with
  | nil => intro store pending sha hmem _; exact hmem
  | cons n rest ih =>
    intro store pending sha hmem hmiss
    have hstep : processPage store pending (n :: rest) =
        processPage (processNode (store, pending) n).1 (processNode (store, pending) n).2 rest := rfl
    rw [hstep]
    refine ih _ _ sha ?_ (fun m hm => hmiss m (List.mem_cons_of_mem n hm))
    unfold processNode
    by_cases hn : n.oid ∈ pending
    · rw [if_pos hn]
      exact (List.mem_erase_of_ne (fun he => hmiss n (List.mem_cons_self n rest) he.symm)).mpr hmem
    · rw [if_neg hn]
      exact hmem

/-- When some pending SHA is matched by no node of any page, the backfill
query loop exhausts all pages and fails with the backfill-incomplete error. -/
theorem loadPushedAtLoop_unmatched :
    ∀ (pages : List (List HistoryNode)) (store : List Commit) (pending : List String)
      (q : Nat) (sha : String),
    sha ∈ pending → (∀ p ∈ pages, ∀ n ∈ p, n.oid ≠ sha) →
    ∃ m, 0 < m ∧ (loadPushedAtLoop store pending pages q).1 = .error (.backfillIncomplete m) := by
  intro pages
  induction pages with
  | nil =>
    intro store pending q sha hmem _
    rcases pending with _ | ⟨a, rest⟩
    · simp at hmem
    · exact ⟨(a :: rest).length, by simp, rfl⟩
  | cons p rest ih =>
    intro store pending q sha hmem hmiss
    have hne : pending.isEmpty = false := by
      rcases pending with _ | _
      · simp at hmem
      · rfl
    have hsp : sha ∈ (processPage store pending p).2 :=
      processPage_mem_of_unmatched p store pending sha hmem
        (fun n hn => hmiss p (List.mem_cons_self p rest) n hn)
    rw [loadPushedAtLoop_eq, hne]
    dsimp only
    rcases rest with _ | ⟨r, rs⟩
    · have hspne : (processPage store pending p).2.isEmpty = false := by
        rcases hx : (processPage store pending p).2 with _ | _
        · rw [hx] at hsp; simp at hsp
        · rfl
      refine ⟨(processPage store pending p).2.length, List.length_pos_of_mem hsp, ?_⟩
      simp [hspne]
    · exact ih (processPage store pending p).1 (processPage store pending p).2 (q + 1) sha hsp
        (fun pg hpg n hn => hmiss pg (List.mem_cons_of_mem p hpg) n hn)

/-- C5: for a cross-repository PR whose head commit lacks a pushed date, if
some commit SHA is never returned by the fork-history query, the first
attempt fails with the backfill-incomplete error and the retry loop does not
retry it: one fetch, no sleeps. -/
theorem c5_backfill_fatal (env : Env) (hd : Commit) (sha : String)
    (hhead : findLastSha (env.raw 0) env.headSHA = some hd)
    (hunset : hd.pushedAt = none)
    (hcross : env.isCrossRepository = true)
    (hsha : sha ∈ mapKeys (env.raw 0))
    (hmiss : ∀ p ∈ env.history 0, ∀ n ∈ p, n.oid ≠ sha) :
    ∃ m q, 0 < m ∧
      loadCommitsGo env = (.error (.backfillIncomplete m), 1, [], q) := by
  obtain ⟨m, hm, herr⟩ :=
    loadPushedAtLoop_unmatched (env.history 0) (env.raw 0) (mapKeys (env.raw 0)) 0 sha hsha hmiss
  rcases hpair : loadPushedAt (env.raw 0) (env.history 0) with ⟨res, q⟩
  have hres : res = .error (.backfillIncomplete m) := by
    have : (loadPushedAt (env.raw 0) (env.history 0)).1 = .error (.backfillIncomplete m) := herr
    rw [hpair] at this
    exact this
  subst hres
  have hstep : attemptStep env 0 = (.error (.backfillIncomplete m), q) := by
    unfold attemptStep
    dsimp only
    rw [hhead]
    dsimp only
    rw [if_pos ⟨by rw [hcross], by rw [hunset]; rfl⟩, hpair]
  refine ⟨m, q, hm, ?_⟩
  show loadCommitsLoop env commitLoadMaxAttempts 0 [] 0 = _
  rw [show commitLoadMaxAttempts = 4 + 1 from rfl, loadCommitsLoop_succ, hstep]
  simp

/-- Witness for C5: a cross-repository environment whose fork history is
empty leaves the head SHA unmatched, so the load fails with
backfill-incomplete after a single fetch. -/
theorem c5_witness :
    ∃ m q, 0 < m ∧
      loadCommitsGo envFork = (.error (.backfillIncomplete m), 1, [], q) :=
  c5_backfill_fatal envFork headNoDateFix "head" rfl rfl rfl (by decide)
    (fun p hp => absurd hp (List.not_mem_nil p))

/-- Unfolding equation for one round-trip of the combined pagination loop. -/
theorem loadPagedLoop_succ (allC : List Comment) (allR : List Review) (fuel : Nat)
    (cc rc : Option Nat) (accC : List Comment) (accR : List Review) (rounds : Nat) :
    loadPagedLoop allC allR (fuel + 1) cc rc accC accR rounds =
      (if (UpdateCursor (serverPage allC (cursorOff cc)).2 cc).2 = false ∧
          (UpdateCursor (serverPage allR (cursorOff rc)).2 rc).2 = false then
        (accC ++ (serverPage allC (cursorOff cc)).1,
         accR ++ (serverPage allR (cursorOff rc)).1, rounds + 1)
       else
        loadPagedLoop allC allR fuel
          (UpdateCursor (serverPage allC (cursorOff cc)).2 cc).1
          (UpdateCursor (serverPage allR (cursorOff rc)).2 rc).1
          (accC ++ (serverPage allC (cursorOff cc)).1)
          (accR ++ (serverPage allR (cursorOff rc)).1) (rounds + 1)) := rfl

/-- Projection equation for the nodes a paginated field serves at an
offset. -/
theorem serverPage_fst {α : Type} (xs : List α) (off : Nat) :
    (serverPage xs off).1 = (xs.drop off).take pageSize := rfl

/-- The page served at a valid offset has more nodes pending exactly when
more than a full page remained. -/
theorem updateCursor_more {α : Type} (xs : List α) (a : Nat) (cv : Option Nat) :
    (UpdateCursor (serverPage xs a).2 cv).2 = decide (a + pageSize < xs.length) := by
  have hps : pageSize = 100 := rfl
  have hlen : ((xs.drop a).take pageSize).length = min pageSize (xs.length - a) := by
    rw [List.length_take, List.length_drop]
  by_cases hlt : a + pageSize < xs.length
  · have hne : ¬ ((xs.drop a).take pageSize).isEmpty := by
      rw [List.isEmpty_iff]
      intro hnil
      rw [hnil] at hlen
      simp only [List.length_nil] at hlen
      omega
    simp [UpdateCursor, serverPage, hne, hlt]
    rw [if_pos (by omega)]
  · simp [UpdateCursor, serverPage, hlt]
    rw [if_neg (by omega)]
    by_cases h2 : pageSize = 0 ∨ xs.length ≤ a
    · rw [if_pos h2]
    · rw [if_neg h2]

/-- Advancing the cursor past the page served at a valid offset lands on
`min (offset + pageSize) length`. -/
theorem updateCursor_off {α : Type} (xs : List α) (a : Nat) (cv : Option Nat)
    (hcv : cursorOff cv = a) (ha : a ≤ xs.length) :
    cursorOff (UpdateCursor (serverPage xs a).2 cv).1 = min (a + pageSize) xs.length := by
  have hps : pageSize = 100 := rfl
  have hlen : ((xs.drop a).take pageSize).length = min pageSize (xs.length - a) := by
    rw [List.length_take, List.length_drop]
  by_cases hempty : ((xs.drop a).take pageSize).isEmpty
  · have hxa : xs.length = a := by
      rw [List.isEmpty_iff] at hempty
      rw [hempty] at hlen
      simp only [List.length_nil] at hlen
      omega
    simp [UpdateCursor, serverPage, hempty]
    rw [hcv]
    omega
  · by_cases hlt : a + pageSize ⊓ (xs.length - a) < xs.length
    · simp [UpdateCursor, serverPage, hempty, hlt, cursorOff]
      omega
    · simp [UpdateCursor, serverPage, hempty, hlt, cursorOff]
      omega

/-- One page plus the remainder past it reassembles the whole remainder. -/
theorem take_page_append {α : Type} (xs : List α) (a : Nat) (ha : a ≤ xs.length) :
    (xs.drop a).take pageSize ++ xs.drop (min (a + pageSize) xs.length) = xs.drop a := by
  by_cases h : a + pageSize ≤ xs.length
  · rw [min_eq_left h, ← List.drop_drop, List.take_append_drop]
  · rw [min_eq_right (by omega), List.drop_length, List.append_nil]
    exact List.take_of_length_le (by rw [List.length_drop]; omega)

/-- The combined pagination loop, started at valid offsets with enough fuel,
appends exactly the remaining nodes of both lists in order and issues
exactly `max(pages-left-c, pages-left-r, 1)` further round-trips. -/
theorem loadPagedLoop_spec (allC : List Comment) (allR : List Review) :
    ∀ (fuel : Nat), ∀ (a b : Nat) (cv rv : Option Nat) (accC : List Comment)
      (accR : List Review) (rounds : Nat),
    cursorOff cv = a → cursorOff rv = b → a ≤ allC.length → b ≤ allR.length →
    (allC.length - a) + (allR.length - b) < fuel →
    loadPagedLoop allC allR fuel cv rv accC accR rounds =
      (accC ++ allC.drop a, accR ++ allR.drop b,
       rounds + max (max (pagesFor (allC.length - a)) (pagesFor (allR.length - b))) 1) := by
  intro fuel
  induction fuel with
  | zero =>
    intro a b cv rv accC accR rounds hca hcb hale hble hfuel
    omega
  | succ fuel ih =>
    intro a b cv rv accC accR rounds hca hcb hale hble hfuel
    rw [loadPagedLoop_succ, hca, hcb, serverPage_fst allC a, serverPage_fst allR b]
    have hcmore := updateCursor_more allC a cv
    have hrmore := updateCursor_more allR b rv
    by_cases hdone : a + pageSize < allC.length ∨ b + pageSize < allR.length
    · rw [if_neg]
      · have hcoff := updateCursor_off allC a cv hca hale
        have hroff := updateCursor_off allR b rv hcb hble
        rw [ih (min (a + pageSize) allC.length) (min (b + pageSize) allR.length) _ _ _ _ _
          hcoff hroff (min_le_right _ _) (min_le_right _ _) (by unfold pageSize at hdone ⊢; omega)]
        rw [List.append_assoc, List.append_assoc, take_page_append allC a hale,
          take_page_append allR b hble]
        have harith : rounds + 1 + max (max (pagesFor (allC.length - min (a + pageSize) allC.length))
            (pagesFor (allR.length - min (b + pageSize) allR.length))) 1 =
            rounds + max (max (pagesFor (allC.length - a)) (pagesFor (allR.length - b))) 1 := by
          unfold pagesFor
          unfold pageSize at hdone ⊢
          omega
        rw [harith]
      · intro hcon
        rw [hcmore, hrmore] at hcon
        rcases hdone with h | h
        · rw [decide_eq_true h] at hcon
          simp at hcon
        · rw [decide_eq_true h] at hcon
          simp at hcon
    · push_neg at hdone
      rw [if_pos ⟨by rw [hcmore]; simp; omega, by rw [hrmore]; simp; omega⟩]
      have hctake : (allC.drop a).take pageSize = allC.drop a :=
        List.take_of_length_le (by rw [List.length_drop]; omega)
      have hrtake : (allR.drop b).take pageSize = allR.drop b :=
        List.take_of_length_le (by rw [List.length_drop]; omega)
      rw [hctake, hrtake]
      have harith : rounds + 1 =
          rounds + max (max (pagesFor (allC.length - a)) (pagesFor (allR.length - b))) 1 := by
        unfold pagesFor
        unfold pageSize at hdone ⊢
        omega
      rw [harith]

/-- C4 (amended): joint comment/review pagination issues exactly
`max(ceil(C/100), ceil(R/100), 1)` combined round-trips for C comments and R
reviews — one round-trip happens even when both lists are empty — terminates
when both cursors are complete, and the cached lists contain all C comments
and all R reviews in platform order. -/
theorem c4_joint_pagination (allC : List Comment) (allR : List Review) :
    loadPagedData allC allR =
      (allC, allR, max (max (pagesFor allC.length) (pagesFor allR.length)) 1) := by
  unfold loadPagedData
  rw [loadPagedLoop_spec allC allR (allC.length + allR.length + 1) 0 0 none none [] [] 0
    rfl rfl (Nat.zero_le _) (Nat.zero_le _) (by omega)]
  simp

/-- Counterexample for C4 as stated: with zero comments and zero reviews the
loop still issues one combined round-trip, while the claimed formula
`max(ceil(C/100), ceil(R/100))` evaluates to zero. -/
theorem c4_counterexample :
    (loadPagedData [] []).2.2 = 1 ∧
    max (pagesFor (List.length ([] : List Comment))) (pagesFor (List.length ([] : List Review))) = 0 := by
  constructor
  · rfl
  · rfl

/-- Healthy-transport result of the joint pagination: both full lists, in
order, with the exact round-trip count. -/
theorem loadPagedData_eq (allC : List Comment) (allR : List Review) :
    loadPagedData allC allR =
      (allC, allR, max (max (pagesFor allC.length) (pagesFor allR.length)) 1) := by
  unfold loadPagedData
  rw [loadPagedLoop_spec allC allR (allC.length + allR.length + 1) 0 0 none none [] [] 0
    rfl rfl (Nat.zero_le _) (Nat.zero_le _) (by omega)]
  simp

/-- C9 (amended): caching behaviour of the accessors.  A failed populating
fetch writes no cache state and the next call re-attempts population; a
successful population is cached and later calls issue no queries — except
for two quirks of `ChangedFiles`: an empty file list is never cached (the Go
nil-slice append leaves the cache nil, so every call re-fetches and returns
the same empty list), and a size-exceeded file list IS cached before the
ceiling check, so later calls return the same error without re-querying.
`Commits()` caches only on success (its failures, size-exceeded included,
leave the cache empty), and `Comments()`/`Reviews()` cache both lists
together. -/
theorem c9_cache_behaviour (env : Env) (s : CacheState) (e : String)
    (raws : List RawFile) (cs : List Commit) (f hq : Nat) (sl : List Nat)
    (err : PullError) :
    (env.fileFetch = .error e → s.files = none →
      changedFiles env s = (.error (.queryFailure e), s, 1)) ∧
    (env.fileFetch = .ok raws → s.files = none → raws ≠ [] →
      raws.length < MaxPullRequestFiles →
      changedFiles env s =
        (.ok (raws.map toFile), { s with files := some (raws.map toFile) }, 1) ∧
      changedFiles env { s with files := some (raws.map toFile) } =
        (.ok (raws.map toFile), { s with files := some (raws.map toFile) }, 0)) ∧
    (env.fileFetch = .ok [] → s.files = none →
      changedFiles env s = (.ok [], s, 1)) ∧
    (env.fileFetch = .ok raws → s.files = none →
      MaxPullRequestFiles ≤ raws.length →
      changedFiles env s =
        (.error .tooManyFiles, { s with files := some (raws.map toFile) }, 1) ∧
      changedFiles env { s with files := some (raws.map toFile) } =
        (.error .tooManyFiles, { s with files := some (raws.map toFile) }, 0)) ∧
    (env.pagedErr = some e → s.comments = none → s.reviews = none →
      commentsFn env s = (.error (.queryFailure e), s, 1) ∧
      reviewsFn env s = (.error (.queryFailure e), s, 1)) ∧
    (env.pagedErr = none → s.comments = none →
      commentsFn env s = (.ok env.commentsSrv,
        { s with comments := some env.commentsSrv, reviews := some env.reviewsSrv },
        max (max (pagesFor env.commentsSrv.length) (pagesFor env.reviewsSrv.length)) 1) ∧
      commentsFn env { s with comments := some env.commentsSrv, reviews := some env.reviewsSrv } =
        (.ok env.commentsSrv,
         { s with comments := some env.commentsSrv, reviews := some env.reviewsSrv }, 0) ∧
      reviewsFn env { s with comments := some env.commentsSrv, reviews := some env.reviewsSrv } =
        (.ok env.reviewsSrv,
         { s with comments := some env.commentsSrv, reviews := some env.reviewsSrv }, 0)) ∧
    (s.commits = none → loadCommitsGo env = (.error err, f, sl, hq) →
      commitsFn env s = (.error err, s, f, sl, hq)) ∧
    (s.commits = none → loadCommitsGo env = (.ok cs, f, sl, hq) →
      cs.length < MaxPullRequestCommits →
      commitsFn env s = (.ok (backfillPushedAt cs env.headSHA),
        { s with commits := some (backfillPushedAt cs env.headSHA) }, f, sl, hq) ∧
      commitsFn env { s with commits := some (backfillPushedAt cs env.headSHA) } =
        (.ok (backfillPushedAt cs env.headSHA),
         { s with commits := some (backfillPushedAt cs env.headSHA) }, 0, [], 0)) ∧
    (s.commits = none → loadCommitsGo env = (.ok cs, f, sl, hq) →
      MaxPullRequestCommits ≤ cs.length →
      commitsFn env s = (.error .tooManyCommits, s, f, sl, hq)) := by
  refine ⟨?_, ?_, ?_, ?_, ?_, ?_, ?_, ?_, ?_⟩
  · intro h1 h2
    simp [changedFiles, h1, h2]
  · intro h1 h2 h3 h4
    have hmapne : (raws.map toFile).isEmpty = false := by
      rw [List.isEmpty_eq_false]
      simp [h3]
    constructor
    · simp [changedFiles, h1, h2, hmapne, show ¬ MaxPullRequestFiles ≤ (raws.map toFile).length
        from by rw [List.length_map]; omega]
      omega
    · simp [changedFiles, show ¬ MaxPullRequestFiles ≤ (raws.map toFile).length
        from by rw [List.length_map]; omega]
      omega
  · intro h1 h2
    have hs : { s with files := none } = s := by
      rcases s with ⟨sf, sc, scm, srv⟩
      simp at h2
      simp [h2]
    simp [changedFiles, h1, h2, MaxPullRequestFiles, hs]
  · intro h1 h2 h3
    have hmapne : (raws.map toFile).isEmpty = false := by
      rw [List.isEmpty_eq_false]
      intro hnil
      have : raws.length = 0 := by
        have := congrArg List.length hnil
        rw [List.length_map] at this
        exact this
      unfold MaxPullRequestFiles at h3
      omega
    constructor
    · simp [changedFiles, h1, h2, hmapne, show MaxPullRequestFiles ≤ (raws.map toFile).length
        from by rw [List.length_map]; omega]
      omega
    · simp [changedFiles, show MaxPullRequestFiles ≤ (raws.map toFile).length
        from by rw [List.length_map]; omega]
      omega
  · intro h1 h2 h3
    constructor
    · simp [commentsFn, loadPagedDataE, h1, h2]
    · simp [reviewsFn, loadPagedDataE, h1, h3]
  · intro h1 h2
    refine ⟨?_, ?_, ?_⟩
    · simp [commentsFn, loadPagedDataE, h1, h2, loadPagedData_eq]
    · simp [commentsFn]
    · simp [reviewsFn]
  · intro h1 h2
    simp [commitsFn, h1, h2]
  · intro h1 h2 h3
    constructor
    · simp [commitsFn, h1, h2, show ¬ MaxPullRequestCommits ≤ cs.length from by omega]
    · simp [commitsFn]
  · intro h1 h2 h3
    simp [commitsFn, h1, h2, h3]

/-- Witness for C9 at concrete environments: an empty file list succeeds but
is re-fetched by the next call, and a transport failure leaves the cache
untouched. -/
theorem c9_witness :
    changedFiles envFilesEmpty CacheState.init = (.ok [], CacheState.init, 1) ∧
    changedFiles envFilesErr CacheState.init = (.error (.queryFailure "boom"), CacheState.init, 1) := by
  constructor
  · exact (c9_cache_behaviour envFilesEmpty CacheState.init "boom" [] [] 0 0 []
      PullError.headMissing).2.2.1 rfl rfl
  · exact (c9_cache_behaviour envFilesErr CacheState.init "boom" [] [] 0 0 []
      PullError.headMissing).1 rfl rfl

/-- Counterexample for C9 as stated: with an empty file list the populating
call succeeds, yet nothing is cached and the next call issues a fetch again
rather than returning from cache. -/
theorem c9_counterexample :
    (changedFiles envFilesEmpty CacheState.init).1 = .ok [] ∧
    (changedFiles envFilesEmpty CacheState.init).2.1.files = none ∧
    (changedFiles envFilesEmpty ((changedFiles envFilesEmpty CacheState.init).2.1)).2.2 = 1 := by
  refine ⟨rfl, rfl, rfl⟩

/-- Page processing only ever shrinks the pending key set. -/
theorem processPage_subset :
    ∀ (page : List HistoryNode) (store : List Commit) (pending : List String),
    (processPage store pending page).2 ⊆ pending := by
  intro page
  induction page with
  | nil => intro store pending x hx; exact hx
  | cons n rest ih =>
    intro store pending x hx
    have hstep : processPage store pending (n :: rest) =
        processPage (processNode (store, pending) n).1 (processNode (store, pending) n).2 rest := rfl
    rw [hstep] at hx
    have hx2 := ih (processNode (store, pending) n).1 (processNode (store, pending) n).2 hx
    unfold processNode at hx2
    by_cases hn : n.oid ∈ pending
    · rw [if_pos hn] at hx2
      exact List.erase_subset _ _ hx2
    · rw [if_neg hn] at hx2
      exact hx2

/-- Page processing preserves distinctness of the pending key set. -/
theorem processPage_nodup :
    ∀ (page : List HistoryNode) (store : List Commit) (pending : List String),
    pending.Nodup → (processPage store pending page).2.Nodup := by
  intro page
  induction page with
  | nil => intro store pending hnd; exact hnd
  | cons n rest ih =>
    intro store pending hnd
    have hstep : processPage store pending (n :: rest) =
        processPage (processNode (store, pending) n).1 (processNode (store, pending) n).2 rest := rfl
    rw [hstep]
    refine ih _ _ ?_
    unfold processNode
    by_cases hn : n.oid ∈ pending
    · rw [if_pos hn]
      exact hnd.erase n.oid
    · rw [if_neg hn]
      exact hnd

/-- A pending SHA matched by some node of the page does not survive the
page's processing (the match deletes it from the pending map). -/
theorem processPage_not_mem :
    ∀ (page : List HistoryNode) (store : List Commit) (pending : List String) (sha : String),
    pending.Nodup → (∃ n ∈ page, n.oid = sha) →
    sha ∉ (processPage store pending page).2 := by
  intro page
  induction page with
  | nil =>
    intro store pending sha hnd hex
    obtain ⟨n, hn, _⟩ := hex
    exact absurd hn (List.not_mem_nil n)
  | cons m rest ih =>
    intro store pending sha hnd hex
    have hstep : processPage store pending (m :: rest) =
        processPage (processNode (store, pending) m).1 (processNode (store, pending) m).2 rest := rfl
    rw [hstep]
    by_cases hm : m.oid = sha
    · have hnotmem : sha ∉ (processNode (store, pending) m).2 := by
        unfold processNode
        by_cases hmem : m.oid ∈ pending
        · rw [if_pos hmem]
          dsimp only
          rw [hm]
          exact hnd.not_mem_erase
        · rw [if_neg hmem]
          rw [hm] at hmem
          exact hmem
      intro hcon
      exact hnotmem (processPage_subset rest _ _ hcon)
    · obtain ⟨n, hn, hoid⟩ := hex
      have hn' : n ∈ rest := by
        rcases List.mem_cons.mp hn with h | h
        · rw [h] at hoid; exact absurd hoid hm
        · exact h
      refine ih _ _ sha ?_ ⟨n, hn', hoid⟩
      unfold processNode
      by_cases hmem : m.oid ∈ pending
      · rw [if_pos hmem]
        exact hnd.erase m.oid
      · rw [if_neg hmem]
        exact hnd

/-- When every pending SHA is matched by some node of the page, processing
the page empties the pending map. -/
theorem processPage_covered (page : List HistoryNode) (store : List Commit)
    (pending : List String) (hnd : pending.Nodup)
    (hcov : ∀ sha ∈ pending, ∃ n ∈ page, n.oid = sha) :
    (processPage store pending page).2 = [] := by
  rw [List.eq_nil_iff_forall_not_mem]
  intro sha hsha
  have hp : sha ∈ pending := processPage_subset page store pending hsha
  exact processPage_not_mem page store pending sha hnd (hcov sha hp) hsha

/-- The distinct key set of `commitsBySHA` has no duplicates. -/
theorem mapKeys_nodup (commits : List Commit) : (mapKeys commits).Nodup := by
  have haux : ∀ (cs : List Commit) (ks : List String), ks.Nodup →
      (cs.foldl (fun ks c => insertKey ks c.sha) ks).Nodup := by
    intro cs
    induction cs with
    | nil => intro ks h; exact h
    | cons c rest ih =>
      intro ks h
      refine ih _ ?_
      show (insertKey ks c.sha).Nodup
      unfold insertKey
      by_cases hm : c.sha ∈ ks
      · rw [if_pos hm]; exact h
      · rw [if_neg hm]
        simp [List.nodup_append, h, hm]
  exact haux commits [] List.nodup_nil

/-- Computation rule: an empty pending map stops the backfill query loop
immediately. -/
theorem loadPushedAtLoop_nilPending (store : List Commit)
    (pages : List (List HistoryNode)) (q : Nat) :
    loadPushedAtLoop store [] pages q = (.ok store, q) := by
  cases pages <;> rfl

/-- Computation rule: a nonempty pending map with no pages left issues one
empty-page query and fails. -/
theorem loadPushedAtLoop_consNil (store : List Commit) (a : String) (pend : List String)
    (q : Nat) :
    loadPushedAtLoop store (a :: pend) [] q =
      (.error (.backfillIncomplete (a :: pend).length), q + 1) := rfl

/-- Computation rule: a nonempty pending map processes the final page and
then succeeds or fails on what is left pending. -/
theorem loadPushedAtLoop_consLast (store : List Commit) (a : String) (pend : List String)
    (p : List HistoryNode) (q : Nat) :
    loadPushedAtLoop store (a :: pend) [p] q =
      (if (processPage store (a :: pend) p).2.isEmpty then .ok (processPage store (a :: pend) p).1
       else .error (.backfillIncomplete (processPage store (a :: pend) p).2.length), q + 1) := rfl

/-- Computation rule: a nonempty pending map processes one page of several
and continues with the rest. -/
theorem loadPushedAtLoop_consCons (store : List Commit) (a : String) (pend : List String)
    (p r : List HistoryNode) (rs : List (List HistoryNode)) (q : Nat) :
    loadPushedAtLoop store (a :: pend) (p :: r :: rs) q =
      loadPushedAtLoop (processPage store (a :: pend) p).1 (processPage store (a :: pend) p).2
        (r :: rs) (q + 1) := rfl

/-- With every pending SHA covered by the first group of pages, the backfill
query loop never touches the later pages (early stop), succeeds, and issues
at most one query per covered page. -/
theorem loadPushedAtLoop_coverage :
    ∀ (pages₁ pages₂ : List (List HistoryNode)) (store : List Commit)
      (pending : List String) (q : Nat),
    pending.Nodup →
    (∀ sha ∈ pending, ∃ p ∈ pages₁, ∃ n ∈ p, n.oid = sha) →
    loadPushedAtLoop store pending (pages₁ ++ pages₂) q = loadPushedAtLoop store pending pages₁ q ∧
    ∃ store₂ q₂, loadPushedAtLoop store pending pages₁ q = (.ok store₂, q₂) ∧
      q₂ ≤ q + pages₁.length := by
  intro pages₁
  induction pages₁ with
  | nil =>
    intro pages₂ store pending q hnd hcov
    have hpend : pending = [] := by
      rcases pending with _ | ⟨a, rest⟩
      · rfl
      · obtain ⟨p, hp, _⟩ := hcov a (List.mem_cons_self a rest)
        exact absurd hp (List.not_mem_nil p)
    subst hpend
    exact ⟨by rw [loadPushedAtLoop_nilPending, loadPushedAtLoop_nilPending],
      store, q, loadPushedAtLoop_nilPending store [] q, by omega⟩
  | cons p rest ih =>
    intro pages₂ store pending q hnd hcov
    rcases pending with _ | ⟨a, pend⟩
    · exact ⟨by rw [loadPushedAtLoop_nilPending, loadPushedAtLoop_nilPending],
        store, q, loadPushedAtLoop_nilPending store (p :: rest) q, by omega⟩
    · have hsub : ∀ sha ∈ (processPage store (a :: pend) p).2,
          ∃ pg ∈ rest, ∃ n ∈ pg, n.oid = sha := by
        intro sha hsha
        have hp : sha ∈ a :: pend := processPage_subset p store (a :: pend) hsha
        obtain ⟨pg, hpg, n, hn, hoid⟩ := hcov sha hp
        rcases List.mem_cons.mp hpg with h | h
        · exfalso
          have hnm : sha ∉ (processPage store (a :: pend) p).2 :=
            processPage_not_mem p store (a :: pend) sha hnd ⟨n, h ▸ hn, hoid⟩
          exact hnm hsha
        · exact ⟨pg, h, n, hn, hoid⟩
      have hnd' : (processPage store (a :: pend) p).2.Nodup :=
        processPage_nodup p store (a :: pend) hnd
      rcases rest with _ | ⟨r, rs⟩
      · have hcv : (processPage store (a :: pend) p).2 = [] := by
          apply processPage_covered p store (a :: pend) hnd
          intro sha hsha
          obtain ⟨pg, hpg, n, hn, hoid⟩ := hcov sha hsha
          have hpp : pg = p := by
            rcases List.mem_cons.mp hpg with h | h
            · exact h
            · exact absurd h (List.not_mem_nil pg)
          exact ⟨n, hpp ▸ hn, hoid⟩
        constructor
        · rcases pages₂ with _ | ⟨x, xs⟩
          · rfl
          · rw [show ([p] ++ x :: xs) = p :: x :: xs from rfl, loadPushedAtLoop_consCons, hcv,
              loadPushedAtLoop_nilPending, loadPushedAtLoop_consLast, hcv]
            rfl
        · refine ⟨(processPage store (a :: pend) p).1, q + 1, ?_, by simp⟩
          rw [loadPushedAtLoop_consLast, hcv]
          rfl
      · obtain ⟨heq, store₂, q₂, hok, hle⟩ := ih pages₂ _ _ (q + 1) hnd' hsub
        constructor
        · rw [show (p :: r :: rs) ++ pages₂ = p :: (r :: (rs ++ pages₂)) from rfl,
            loadPushedAtLoop_consCons, loadPushedAtLoop_consCons,
            show r :: (rs ++ pages₂) = (r :: rs) ++ pages₂ from rfl]
          exact heq
        · refine ⟨store₂, q₂, ?_, ?_⟩
          · rw [loadPushedAtLoop_consCons]
            exact hok
          · simp at hle ⊢
            omega

/-- The map lookup fails exactly when no commit of the slice has the SHA. -/
theorem findLastSha_none_iff :
    ∀ (l : List Commit) (sha : String),
    findLastSha l sha = none ↔ ∀ c ∈ l, c.sha ≠ sha := by
  intro l
  induction l with
  | nil => intro sha; simp [findLastSha]
  | cons c rest ih =>
    intro sha
    constructor
    · intro h
      unfold findLastSha at h
      cases hr : findLastSha rest sha with
      | some x =>
        rw [hr] at h
        exact absurd h (by simp)
      | none =>
        rw [hr] at h
        intro d hd
        rcases List.mem_cons.mp hd with h1 | h1
        · subst h1
          intro hcs
          rw [if_pos hcs] at h
          simp at h
        · exact ((ih sha).mp hr) d h1
    · intro h
      unfold findLastSha
      have hr : findLastSha rest sha = none :=
        (ih sha).mpr (fun d hd => h d (List.mem_cons_of_mem c hd))
      rw [hr, if_neg (h c (List.mem_cons_self c rest))]

/-- Mutating a SHA's pushed date through the map is observed by the next
lookup of the same SHA. -/
theorem findLast_updateLast_self :
    ∀ (store : List Commit) (sha : String) (d : Option Nat),
    findLastSha (updateLastSha store sha d) sha =
      (findLastSha store sha).map (fun c => { c with pushedAt := d }) := by
  intro store
  induction store with
  | nil => intro sha d; rfl
  | cons c rest ih =>
    intro sha d
    by_cases hany : rest.any (fun x => decide (x.sha = sha)) = true
    · cases hr : findLastSha rest sha with
      | none =>
        exfalso
        obtain ⟨x, hx, hxs⟩ := List.any_eq_true.mp hany
        exact ((findLastSha_none_iff rest sha).mp hr x hx) (of_decide_eq_true hxs)
      | some y =>
        unfold updateLastSha
        rw [if_pos hany]
        unfold findLastSha
        rw [ih sha d, hr]
        simp
    · have hr : findLastSha rest sha = none := by
        rw [findLastSha_none_iff]
        intro x hx
        have := List.any_eq_false.mp (Bool.not_eq_true _ ▸ hany) x hx
        simpa using this
      unfold updateLastSha
      rw [if_neg hany]
      by_cases hc : c.sha = sha
      · rw [if_pos hc]
        unfold findLastSha
        rw [hr]
        simp [hc]
      · rw [if_neg hc]
        unfold findLastSha
        rw [hr, if_neg hc]
        rfl

/-- Mutating one SHA's pushed date through the map does not change lookups
of any other SHA. -/
theorem findLast_updateLast_ne :
    ∀ (store : List Commit) (sha sha2 : String) (d : Option Nat), sha2 ≠ sha →
    findLastSha (updateLastSha store sha d) sha2 = findLastSha store sha2 := by
  intro store
  induction store with
  | nil => intro sha sha2 d hne; rfl
  | cons c rest ih =>
    intro sha sha2 d hne
    unfold updateLastSha
    by_cases hany : rest.any (fun x => decide (x.sha = sha)) = true
    · rw [if_pos hany]
      unfold findLastSha
      rw [ih sha sha2 d hne]
    · rw [if_neg hany]
      by_cases hc : c.sha = sha
      · rw [if_pos hc]
        unfold findLastSha
        cases hr : findLastSha rest sha2 with
        | some y => rfl
        | none =>
          have h1 : ({ c with pushedAt := d } : Commit).sha = c.sha := rfl
          have h2 : c.sha ≠ sha2 := fun h => hne (by rw [← h, hc])
          rw [if_neg (by rw [h1]; exact h2), if_neg h2]
      · rw [if_neg hc]

/-- Lookups of SHAs outside the pending map are untouched by page
processing. -/
theorem processPage_findLast_not_mem :
    ∀ (page : List HistoryNode) (store : List Commit) (pending : List String) (sha : String),
    sha ∉ pending →
    findLastSha (processPage store pending page).1 sha = findLastSha store sha := by
  intro page
  induction page with
  | nil => intro store pending sha h; rfl
  | cons n rest ih =>
    intro store pending sha h
    have hstep : processPage store pending (n :: rest) =
        processPage (processNode (store, pending) n).1 (processNode (store, pending) n).2 rest := rfl
    rw [hstep]
    unfold processNode
    by_cases hn : n.oid ∈ pending
    · rw [if_pos hn]
      dsimp only
      rw [ih _ _ sha (fun hc => h (List.erase_subset _ _ hc))]
      exact findLast_updateLast_ne store n.oid sha n.pushedDate (fun he => h (he ▸ hn))
    · rw [if_neg hn]
      exact ih _ _ sha h

/-- The first node of a page matching a pending SHA assigns that node's
pushed date to the commit, and no later node of the page reassigns it. -/
theorem processPage_assign :
    ∀ (pre post : List HistoryNode) (n : HistoryNode)
      (store : List Commit) (pending : List String) (sha : String),
    pending.Nodup → sha ∈ pending → n.oid = sha → (∀ m ∈ pre, m.oid ≠ sha) →
    findLastSha (processPage store pending (pre ++ n :: post)).1 sha =
      (findLastSha store sha).map (fun c => { c with pushedAt := n.pushedDate }) := by
  intro pre
  induction pre with
  | nil =>
    intro post n store pending sha hnd hmem hn _
    have hstep : processPage store pending ([] ++ n :: post) =
        processPage (processNode (store, pending) n).1 (processNode (store, pending) n).2 post := rfl
    rw [hstep]
    unfold processNode
    rw [hn, if_pos hmem]
    dsimp only
    rw [processPage_findLast_not_mem post _ _ sha hnd.not_mem_erase]
    exact findLast_updateLast_self store sha n.pushedDate
  | cons m pre' ih =>
    intro post n store pending sha hnd hmem hn hpre
    have hstep : processPage store pending ((m :: pre') ++ n :: post) =
        processPage (processNode (store, pending) m).1 (processNode (store, pending) m).2
          (pre' ++ n :: post) := rfl
    rw [hstep]
    have hm : m.oid ≠ sha := hpre m (List.mem_cons_self m pre')
    unfold processNode
    by_cases hmm : m.oid ∈ pending
    · rw [if_pos hmm]
      dsimp only
      rw [ih post n _ _ sha (hnd.erase m.oid)
        ((List.mem_erase_of_ne (Ne.symm hm)).mpr hmem) hn
        (fun x hx => hpre x (List.mem_cons_of_mem m hx))]
      rw [findLast_updateLast_ne store m.oid sha m.pushedDate (Ne.symm hm)]
    · rw [if_neg hmm]
      exact ih post n _ _ sha hnd hmem hn (fun x hx => hpre x (List.mem_cons_of_mem m hx))

/-- C1 (amended): during cross-repository pushed-date backfill, the pending
set initially holds EVERY fetched commit keyed by SHA — including commits
whose pushed timestamp is already set, not only those missing one.  For each
fetched history page, every returned OID matching a pending commit has the
node's pushed date assigned to that commit and its SHA removed from the
pending set, and pagination stops early: once every pending SHA is covered
by a prefix of the pages, later pages are never queried, the call succeeds,
and at most one query per covered page is issued. -/
theorem c1_backfill_pending (commits : List Commit) (pages₁ pages₂ : List (List HistoryNode))
    (store : List Commit) (pending : List String) (pre post : List HistoryNode)
    (n : HistoryNode) (sha : String)
    (hcov : ∀ s ∈ mapKeys commits, ∃ p ∈ pages₁, ∃ m ∈ p, m.oid = s)
    (hnd : pending.Nodup) (hmem : sha ∈ pending) (hn : n.oid = sha)
    (hpre : ∀ m ∈ pre, m.oid ≠ sha) :
    loadPushedAt commits (pages₁ ++ pages₂) = loadPushedAt commits pages₁ ∧
    (∃ store₂ q₂, loadPushedAt commits pages₁ = (.ok store₂, q₂) ∧ q₂ ≤ pages₁.length) ∧
    sha ∉ (processPage store pending (pre ++ n :: post)).2 ∧
    findLastSha (processPage store pending (pre ++ n :: post)).1 sha =
      (findLastSha store sha).map (fun c => { c with pushedAt := n.pushedDate }) := by
  obtain ⟨heq, store₂, q₂, hok, hle⟩ :=
    loadPushedAtLoop_coverage pages₁ pages₂ commits (mapKeys commits) 0 (mapKeys_nodup commits) hcov
  refine ⟨heq, ⟨store₂, q₂, hok, by omega⟩, ?_, ?_⟩
  · exact processPage_not_mem (pre ++ n :: post) store pending sha hnd
      ⟨n, List.mem_append_right pre (List.mem_cons_self n post), hn⟩
  · exact processPage_assign pre post n store pending sha hnd hmem hn hpre

/-- Witness for C1 at a concrete one-commit backfill: the single page covers
the only pending SHA, so the extra page is never queried, the run succeeds
in one query, and the matched commit receives the node's pushed date while
its SHA leaves the pending set. -/
theorem c1_witness :
    loadPushedAt
        [{ sha := "z1", parents := [], committedViaWeb := false, author := "", committer := "", pushedAt := none }]
        ([[{ oid := "z1", pushedDate := some 3 }]] ++ [[{ oid := "junk", pushedDate := none }]]) =
      loadPushedAt
        [{ sha := "z1", parents := [], committedViaWeb := false, author := "", committer := "", pushedAt := none }]
        [[{ oid := "z1", pushedDate := some 3 }]] ∧
    (∃ store₂ q₂, loadPushedAt
        [{ sha := "z1", parents := [], committedViaWeb := false, author := "", committer := "", pushedAt := none }]
        [[{ oid := "z1", pushedDate := some 3 }]] = (.ok store₂, q₂) ∧ q₂ ≤ 1) ∧
    "z1" ∉ (processPage
        [{ sha := "z1", parents := [], committedViaWeb := false, author := "", committer := "", pushedAt := none }]
        ["z1"] ([] ++ { oid := "z1", pushedDate := some 3 } :: [])).2 ∧
    findLastSha (processPage
        [{ sha := "z1", parents := [], committedViaWeb := false, author := "", committer := "", pushedAt := none }]
        ["z1"] ([] ++ { oid := "z1", pushedDate := some 3 } :: [])).1 "z1" =
      (findLastSha
        [{ sha := "z1", parents := [], committedViaWeb := false, author := "", committer := "", pushedAt := none }]
        "z1").map (fun c => { c with pushedAt := some 3 }) := by
  have h := c1_backfill_pending
    [{ sha := "z1", parents := [], committedViaWeb := false, author := "", committer := "", pushedAt := none }]
    [[{ oid := "z1", pushedDate := some 3 }]] [[{ oid := "junk", pushedDate := none }]]
    [{ sha := "z1", parents := [], committedViaWeb := false, author := "", committer := "", pushedAt := none }]
    ["z1"] [] [] { oid := "z1", pushedDate := some 3 } "z1"
    (by decide) (by decide) (by decide) rfl
    (fun m hm => absurd hm (List.not_mem_nil m))
  exact ⟨h.1, by simpa using h.2.1, h.2.2.1, h.2.2.2⟩

/-- Counterexample for C1 as stated: the code's pending set is NOT the set
of commits still missing a timestamp — it holds every commit.  For a single
commit that already has a pushed date and an empty fork history, the source
loop fails with backfill-incomplete after one query, while the loop whose
pending set holds only timestamp-missing commits (the claim's reading)
succeeds immediately with zero queries. -/
theorem c1_counterexample :
    (loadPushedAt
        [{ sha := "a", parents := [], committedViaWeb := false, author := "", committer := "", pushedAt := some 5 }]
        []).1 = .error (.backfillIncomplete 1) ∧
    loadPushedAtClaim
        [{ sha := "a", parents := [], committedViaWeb := false, author := "", committer := "", pushedAt := some 5 }]
        [] =
      (.ok [{ sha := "a", parents := [], committedViaWeb := false, author := "", committer := "", pushedAt := some 5 }], 0) := by
  exact ⟨rfl, rfl⟩

end PolicyBot
